import Mathlib

/-!
Verification of the Buckley-Leverett W-PINN training script
(`Buckley-Leverett.py`).

The script trains a tanh network `u(t, x)` minimising a physics-informed
loss for the conservation law `u_t + (F(u))_x = 0`,
`F(u) = u^2 / (4 u^2 + (1 - u)^2)`.

Shallow embedding:
* the computation graph of the network output (with respect to the batch
  inputs) is an expression `Expr` over the two input variables
  (time, space), with affine arithmetic, division and `tanh` nodes;
* `torch.autograd.grad` (the `gradients` helper of the script, which
  requests exact reverse-mode derivatives with `create_graph=True`) is
  modelled by symbolic differentiation `diffE` on the graph, and its
  exactness is proved against Mathlib's `HasDerivAt`;
* batches are lists; `torch.mean` is `mean`; numpy grids are lists of
  lists built exactly as `np.meshgrid(t, x)` followed by `flatten`;
* the training loop is a state transition that mirrors `train`/`closure`.
-/

namespace BuckleyLeverett

/-- The two input columns of the network: column 0 is time, column 1 is
space (the script stacks batches as `hstack((t, x))`). -/
inductive Var where
  | time : Var
  | space : Var
deriving DecidableEq, Repr

/-- Computation graph of a scalar quantity produced from the batch inputs:
constants and the two input variables, combined by the operations the
script uses (affine layers, elementwise products, the flux quotient and
the `Tanh` activation layers). -/
inductive Expr where
  | var : Var → Expr
  | konst : ℝ → Expr
  | add : Expr → Expr → Expr
  | sub : Expr → Expr → Expr
  | mul : Expr → Expr → Expr
  | div : Expr → Expr → Expr
  | tanh : Expr → Expr

/-- Forward evaluation of a computation graph at an input point `(t, x)`. -/
noncomputable def evalE : Expr → ℝ → ℝ → ℝ
  | .var .time, t, _ => t
  | .var .space, _, x => x
  | .konst c, _, _ => c
  | .add a b, t, x => evalE a t x + evalE b t x
  | .sub a b, t, x => evalE a t x - evalE b t x
  | .mul a b, t, x => evalE a t x * evalE b t x
  | .div a b, t, x => evalE a t x / evalE b t x
  | .tanh a, t, x => Real.tanh (evalE a t x)

/-- Symbolic reverse-mode differentiation of a computation graph with
respect to input variable `i`: the derivative graph `torch.autograd.grad`
with `create_graph=True` builds (and keeps differentiable). -/
def diffE (i : Var) : Expr → Expr
  | .var j => .konst (if j = i then 1 else 0)
  | .konst _ => .konst 0
  | .add a b => .add (diffE i a) (diffE i b)
  | .sub a b => .sub (diffE i a) (diffE i b)
  | .mul a b => .add (.mul (diffE i a) b) (.mul a (diffE i b))
  | .div a b => .div (.sub (.mul (diffE i a) b) (.mul a (diffE i b))) (.mul b b)
  | .tanh a => .mul (diffE i a) (.sub (.konst 1) (.mul (.tanh a) (.tanh a)))

/-- All denominators occurring in the graph are nonzero at `(t, x)`:
the precondition under which autograd's derivative of a quotient is the
analytic derivative. -/
def DenomsNZ : Expr → ℝ → ℝ → Prop
  | .var _, _, _ => True
  | .konst _, _, _ => True
  | .add a b, t, x => DenomsNZ a t x ∧ DenomsNZ b t x
  | .sub a b, t, x => DenomsNZ a t x ∧ DenomsNZ b t x
  | .mul a b, t, x => DenomsNZ a t x ∧ DenomsNZ b t x
  | .div a b, t, x => DenomsNZ a t x ∧ DenomsNZ b t x ∧ evalE b t x ≠ 0
  | .tanh a, t, x => DenomsNZ a t x

/-- Model of `gradients(outputs, inputs)` (script lines 72-73): exact reverse-mode
gradient of the per-row scalar output with respect to the two input
columns of the batch row `p = (t, x)`, returned as `(∂/∂t, ∂/∂x)`. -/
noncomputable def gradients (e : Expr) (p : ℝ × ℝ) : ℝ × ℝ :=
  (evalE (diffE .time e) p.1 p.2, evalE (diffE .space e) p.1 p.2)

/-- Denominator of the Buckley-Leverett flux: `4 u^2 + (1 - u)^2`. -/
def fluxDenom (u : ℝ) : ℝ := 4 * u ^ 2 + (1 - u) ^ 2

/-- The flux `F = (u**2)/(4*(u**2) + (1-u)**2)` (script line 53). -/
noncomputable def F (u : ℝ) : ℝ := u ^ 2 / fluxDenom u

/-- The computation graph of `F` applied elementwise to the already
differentiated network output `u`: a pure function of `u`'s graph, hence
part of the same differentiation graph (script line 53). -/
def Fexpr (u : Expr) : Expr :=
  .div (.mul u u)
    (.add (.mul (.konst 4) (.mul u u)) (.mul (.sub (.konst 1) u) (.sub (.konst 1) u)))

/-- Model of `torch.mean` of a batch of scalars held as a list. -/
noncomputable def mean (l : List ℝ) : ℝ := l.sum / l.length

/-- Model of `DNN.loss_pde` (script lines 48-59) on a batch of interior collocation
points marked as differentiation roots, for a network whose scalar output
has computation graph `e`: evaluate `u`, request its gradient, keep the
time column `u_t`, form the flux graph elementwise from `u`, request the
(nested) gradient of the flux, keep the space column `F_x`, and return the
mean of `(u_t + F_x)^2`. -/
noncomputable def loss_pde (e : Expr) (pts : List (ℝ × ℝ)) : ℝ :=
  mean (pts.map (fun p =>
    let du_g := gradients e p
    let u_t := du_g.1
    let DF := gradients (Fexpr e) p
    let F_x := DF.2
    (u_t + F_x) ^ 2))

/-- Model of `DNN.loss_ic` (script lines 62-68): plain forward pass of the network
on the IC batch, first (only) output column against the targets, mean
squared error. -/
noncomputable def loss_ic (e : Expr) (x_ic : List (ℝ × ℝ)) (u_ic : List ℝ) : ℝ :=
  mean ((x_ic.zip u_ic).map (fun q => (evalE e q.1.1 q.1.2 - q.2) ^ 2))

/-- Per-element initial condition (script lines 90-93): `1` when
`-0.5 <= x[i] and x[i] <= 0`, else `0`. -/
def icFun (v : ℚ) : ℚ := if -0.5 ≤ v ∧ v ≤ 0 then 1 else 0

/-- Model of `IC` (script lines 86-94): the elementwise step profile over the
sampled x-coordinates. -/
def IC (x : List ℚ) : List ℚ := x.map icFun

/-- First output of `np.meshgrid(t, x)` (script line 108): the matrix of
shape `(len x, len t)` whose row `i` is the whole `t` axis. -/
def meshgridT {α : Type _} (t x : List α) : List (List α) :=
  x.map (fun _ => t)

/-- Second output of `np.meshgrid(t, x)`: the matrix of shape
`(len x, len t)` whose row `i` is constantly `x i`. -/
def meshgridX {α : Type _} (t x : List α) : List (List α) :=
  x.map (fun xi => t.map (fun _ => xi))

/-- Model of `T = t_grid.flatten()` (script line 109): row-major flattening, `x`
the slow index, `t` the fast index. -/
def Tflat {α : Type _} (t x : List α) : List α := (meshgridT t x).flatten

/-- Model of `X = x_grid.flatten()` (script line 110). -/
def Xflat {α : Type _} (t x : List α) : List α := (meshgridX t x).flatten

/-- Model of `x_ic_train = hstack((t_grid[id_ic,0], x_grid[id_ic,0]))`
(script lines 121-123): the IC batch drawn from the first time column. -/
def x_ic_train {α : Type _} (t x : List α) (d : α) (id_ic : List ℕ) :
    List (α × α) :=
  id_ic.map (fun i =>
    (((meshgridT t x).getD i []).getD 0 d, ((meshgridX t x).getD i []).getD 0 d))

/-- Model of `u_ic_train = IC(x_grid[id_ic, 0])` (script line 124): the IC targets
computed from the same drawn x-coordinates. -/
def u_ic_train (t x : List ℚ) (id_ic : List ℕ) : List ℚ :=
  IC (id_ic.map (fun i => ((meshgridX t x).getD i []).getD 0 0))

/-- Model of `x_int_train = hstack((T[id_f], X[id_f]))` (script lines 126-128):
the interior batch drawn from the flattened grid. -/
def x_int_train {α : Type _} (t x : List α) (d : α) (id_f : List ℕ) :
    List (α × α) :=
  id_f.map (fun k => ((Tflat t x).getD k d, (Xflat t x).getD k d))

/-- The values the script passes around: torch tensors (with a device and
a `requires_grad` mark), numpy arrays, and anything else. -/
inductive PyObj where
  | tensor (device : String) (requiresGrad : Bool) (data : List ℚ)
  | ndarray (data : List ℚ)
  | other (typeName : String)
deriving DecidableEq, Repr

/-- Model of `to_numpy` (script lines 76-83): a tensor is detached, moved to the
CPU and converted to a numpy array of the same data; a numpy array is
returned unchanged; anything else raises `TypeError`. -/
def to_numpy : PyObj → Except String PyObj
  | .tensor _ _ d => .ok (.ndarray d)
  | .ndarray d => .ok (.ndarray d)
  | .other ty =>
    .error ("Unknown type of input, expected torch.Tensor or np.ndarray, but got "
      ++ ty)

/-- The mutable state of `main` during training: the network parameters
and the tensors built once before the loop (script lines 118-136). The
network with parameters `θ` has scalar-output computation graph
`netE θ`. -/
structure TrainState (Θ : Type _) where
  params : Θ
  x_int_train : List (ℝ × ℝ)
  x_ic_train : List (ℝ × ℝ)
  u_ic_train : List ℝ
  x_test : List (ℝ × ℝ)

/-- The scalar computed by `closure` (script lines 147-156) and
back-propagated: `loss = 0.1*loss_pde + 10*loss_ic` on the fixed
training tensors held in the state. -/
noncomputable def closureLoss {Θ : Type _} (netE : Θ → Expr)
    (s : TrainState Θ) : ℝ :=
  0.1 * loss_pde (netE s.params) s.x_int_train
    + 10 * loss_ic (netE s.params) s.x_ic_train s.u_ic_train

/-- One epoch, `train(epoch)` (script lines 145-162):
`optimizer.step(closure)` receives the back-propagated closure scalar,
updates the parameters through the optimizer (`optStep`, here a black
box as in the spec), and reports the closure's loss value. Nothing but
`params` is written. -/
noncomputable def trainStep {Θ : Type _} (netE : Θ → Expr)
    (optStep : Θ → ℝ → Θ) (s : TrainState Θ) : TrainState Θ × ℝ :=
  ({ s with params := optStep s.params (closureLoss netE s) },
    closureLoss netE s)

/-- The parameter state after `n` epochs. -/
noncomputable def stateAt {Θ : Type _} (netE : Θ → Expr)
    (optStep : Θ → ℝ → Θ) (s0 : TrainState Θ) : ℕ → TrainState Θ
  | 0 => s0
  | n + 1 => (trainStep netE optStep (stateAt netE optStep s0 n)).1

/-- The whole training loop, `for epoch in range(1, epochs+1): train(epoch)`
(script lines 167-168): fold over the epoch counter sequence, collecting
each epoch's reported loss; the body does not read the epoch counter
except for reporting. -/
noncomputable def trainLoop {Θ : Type _} (netE : Θ → Expr)
    (optStep : Θ → ℝ → Θ) (epochs : ℕ) (s0 : TrainState Θ) :
    TrainState Θ × List ℝ :=
  (List.range' 1 epochs).foldl
    (fun acc _ =>
      ((trainStep netE optStep acc.1).1,
        acc.2 ++ [(trainStep netE optStep acc.1).2]))
    (s0, [])

/-- Constant `EPOCHS` of the reference configuration (script line 104). -/
def EPOCHS : ℕ := 49911

/-- Derivative of the hyperbolic tangent activation:
`tanh' y = 1 - tanh y ^ 2`. -/
theorem hasDerivAt_tanh (y : ℝ) :
    HasDerivAt Real.tanh (1 - Real.tanh y ^ 2) y := by
  have hcosh : Real.cosh y ≠ 0 := (Real.cosh_pos y).ne'
  have h : HasDerivAt (fun z => Real.sinh z / Real.cosh z)
      ((Real.cosh y * Real.cosh y - Real.sinh y * Real.sinh y) /
        Real.cosh y ^ 2) y :=
    (Real.hasDerivAt_sinh y).div (Real.hasDerivAt_cosh y) hcosh
  have hfun : (fun z => Real.sinh z / Real.cosh z) = Real.tanh := by
    funext z
    exact (Real.tanh_eq_sinh_div_cosh z).symm
  rw [hfun] at h
  convert h using 1
  rw [Real.tanh_eq_sinh_div_cosh]
  have hsq := Real.cosh_sq_sub_sinh_sq y
  field_simp
  nlinarith [hsq]

/-- Exactness of the autograd model in the time variable: the symbolic
derivative graph evaluates to the analytic partial derivative, provided
no division node in the graph has a vanishing denominator at the point. -/
theorem hasDerivAt_evalE_time (e : Expr) (t x : ℝ) (h : DenomsNZ e t x) :
    HasDerivAt (fun τ => evalE e τ x) (evalE (diffE .time e) t x) t := by
  induction e with
  | var j =>
    cases j with
    | time => simpa [evalE, diffE] using hasDerivAt_id t
    | space => simpa [evalE, diffE] using hasDerivAt_const t x
  | konst c => simpa [evalE, diffE] using hasDerivAt_const t c
  | add a b iha ihb =>
    simpa [evalE, diffE] using (iha h.1).add (ihb h.2)
  | sub a b iha ihb =>
    simpa [evalE, diffE] using (iha h.1).sub (ihb h.2)
  | mul a b iha ihb =>
    simpa [evalE, diffE] using (iha h.1).mul (ihb h.2)
  | div a b iha ihb =>
    have hd := (iha h.1).div (ihb h.2.1) h.2.2
    simp only [evalE, diffE]
    convert hd using 1
    rw [pow_two]
  | tanh a iha =>
    have hcomp := (hasDerivAt_tanh (evalE a t x)).comp t (iha h)
    simp only [evalE, diffE]
    convert hcomp using 1
    ring

/-- Exactness of the autograd model in the space variable. -/
theorem hasDerivAt_evalE_space (e : Expr) (t x : ℝ) (h : DenomsNZ e t x) :
    HasDerivAt (fun ξ => evalE e t ξ) (evalE (diffE .space e) t x) x := by
  induction e with
  | var j =>
    cases j with
    | time => simpa [evalE, diffE] using hasDerivAt_const x t
    | space => simpa [evalE, diffE] using hasDerivAt_id x
  | konst c => simpa [evalE, diffE] using hasDerivAt_const x c
  | add a b iha ihb =>
    simpa [evalE, diffE] using (iha h.1).add (ihb h.2)
  | sub a b iha ihb =>
    simpa [evalE, diffE] using (iha h.1).sub (ihb h.2)
  | mul a b iha ihb =>
    simpa [evalE, diffE] using (iha h.1).mul (ihb h.2)
  | div a b iha ihb =>
    have hd := (iha h.1).div (ihb h.2.1) h.2.2
    simp only [evalE, diffE]
    convert hd using 1
    rw [pow_two]
  | tanh a iha =>
    have hcomp := (hasDerivAt_tanh (evalE a t x)).comp x (iha h)
    simp only [evalE, diffE]
    convert hcomp using 1
    ring

/-- The flux denominator is strictly positive for every real `u`
(`5 u^2 - 2 u + 1` has negative discriminant). -/
theorem fluxDenom_pos (u : ℝ) : 0 < fluxDenom u := by
  unfold fluxDenom
  nlinarith [sq_nonneg (5 * u - 1)]

/-- Forward evaluation of the flux graph is the flux of the forward
evaluation. -/
theorem evalE_Fexpr (u : Expr) (t x : ℝ) :
    evalE (Fexpr u) t x = F (evalE u t x) := by
  simp only [Fexpr, evalE, F, fluxDenom]
  congr 1 <;> ring

/-- The flux graph adds no vanishing denominator: its only division is by
the flux denominator, which is strictly positive. -/
theorem DenomsNZ_Fexpr (u : Expr) (t x : ℝ) (h : DenomsNZ u t x) :
    DenomsNZ (Fexpr u) t x := by
  have hpos := fluxDenom_pos (evalE u t x)
  rw [fluxDenom] at hpos
  simp only [Fexpr, DenomsNZ, evalE]
  exact ⟨⟨h, h⟩, ⟨⟨trivial, h, h⟩, ⟨trivial, h⟩, trivial, h⟩, by nlinarith⟩

/-- A list of squares sums to zero exactly when every entry is zero. -/
theorem sum_sq_eq_zero_iff (l : List ℝ) :
    (l.map (fun a => a ^ 2)).sum = 0 ↔ ∀ a ∈ l, a = 0 := by
  induction l with
  | nil => simp
  | cons a l ih =>
    have hrest : 0 ≤ (l.map (fun a => a ^ 2)).sum :=
      List.sum_nonneg (by rintro b hb; rcases List.mem_map.1 hb with ⟨c, _, rfl⟩; positivity)
    simp only [List.map_cons, List.sum_cons, List.mem_cons]
    rw [add_eq_zero_iff_of_nonneg (sq_nonneg a) hrest, sq_eq_zero_iff, ih]
    constructor
    · rintro ⟨h1, h2⟩ b (rfl | hb)
      · exact h1
      · exact h2 b hb
    · intro hall
      exact ⟨hall a (Or.inl rfl), fun b hb => hall b (Or.inr hb)⟩

/-- The mean of a batch of nonnegative scalars is nonnegative. -/
theorem mean_nonneg (l : List ℝ) (h : ∀ a ∈ l, 0 ≤ a) : 0 ≤ mean l :=
  div_nonneg (List.sum_nonneg h) (Nat.cast_nonneg _)

/-- C5: for every real `u` the flux denominator `4 u^2 + (1 - u)^2` is
strictly positive (both squares would have to vanish simultaneously, which
needs `u = 0` and `u = 1` at once), so the elementwise division defining
`F = u^2 / (4 u^2 + (1 - u)^2)` in the residual loss never divides by
zero for finite real network outputs. -/
theorem flux_denominator_never_zero (u : ℝ) :
    0 < fluxDenom u ∧ fluxDenom u ≠ 0 ∧ F u = u ^ 2 / fluxDenom u :=
  ⟨fluxDenom_pos u, (fluxDenom_pos u).ne', rfl⟩

/-- C7: for an arbitrary network graph and arbitrary finite batches, the
PDE residual loss (a mean of squared residuals) and the IC loss (a mean of
squared errors) are both nonnegative. -/
theorem losses_nonneg (e : Expr) (pts : List (ℝ × ℝ))
    (x_ic : List (ℝ × ℝ)) (u_ic : List ℝ) :
    0 ≤ loss_pde e pts ∧ 0 ≤ loss_ic e x_ic u_ic := by
  constructor
  · apply mean_nonneg
    rintro b hb
    rcases List.mem_map.1 hb with ⟨p, _, rfl⟩
    positivity
  · apply mean_nonneg
    rintro b hb
    rcases List.mem_map.1 hb with ⟨q, _, rfl⟩
    positivity

/-- C1: on a batch of interior collocation points marked as
differentiation roots, `loss_pde` returns the mean over the batch of
`(u_t + F_x)^2`, where `u_t` is the exact time derivative of the network
output `u` and `F_x` is the exact space derivative of the flux
`F = u^2 / (4 u^2 + (1-u)^2)` computed elementwise from the already
differentiated `u` inside the same differentiation graph (a second,
nested gradient with respect to the same inputs). Requires that no
division node of the network graph has a vanishing denominator at any
batch point (the reference network is affine/tanh and has none). -/
theorem loss_pde_is_mean_sq_residual (e : Expr) (pts : List (ℝ × ℝ))
    (h : ∀ p ∈ pts, DenomsNZ e p.1 p.2) :
    loss_pde e pts =
      mean (pts.map (fun p =>
        (deriv (fun τ => evalE e τ p.2) p.1 +
          deriv (fun ξ => F (evalE e p.1 ξ)) p.2) ^ 2)) := by
  simp only [loss_pde, gradients]
  congr 1
  apply List.map_congr_left
  intro p hp
  have hD := h p hp
  have h1 : deriv (fun τ => evalE e τ p.2) p.1 = evalE (diffE .time e) p.1 p.2 :=
    (hasDerivAt_evalE_time e p.1 p.2 hD).deriv
  have h2 : deriv (fun ξ => F (evalE e p.1 ξ)) p.2 =
      evalE (diffE .space (Fexpr e)) p.1 p.2 := by
    have h3 := (hasDerivAt_evalE_space (Fexpr e) p.1 p.2
      (DenomsNZ_Fexpr e p.1 p.2 hD)).deriv
    have hfun : (fun ξ => evalE (Fexpr e) p.1 ξ) =
        fun ξ => F (evalE e p.1 ξ) := funext fun ξ => evalE_Fexpr e p.1 ξ
    rw [hfun] at h3
    exact h3
  rw [h1, h2]

/-- Witness for C1 at the concrete network graph `tanh(x)` and the
one-point batch `[(0, 0)]`: the hypothesis (no vanishing denominators)
holds definitionally for a division-free graph. -/
theorem loss_pde_is_mean_sq_residual_witness :
    loss_pde (.tanh (.var .space)) [((0 : ℝ), (0 : ℝ))] =
      mean ([((0 : ℝ), (0 : ℝ))].map (fun p =>
        (deriv (fun τ => evalE (.tanh (.var .space)) τ p.2) p.1 +
          deriv (fun ξ => F (evalE (.tanh (.var .space)) p.1 ξ)) p.2) ^ 2)) :=
  loss_pde_is_mean_sq_residual _ _ (fun _ _ => trivial)

/-- C6: `loss_ic` is the mean squared error between the network's output
column at the sampled IC points and the targets, and on a nonempty batch
it vanishes exactly when the network output equals the target at every
sampled IC point. -/
theorem loss_ic_zero_iff_exact (e : Expr) (x_ic : List (ℝ × ℝ))
    (u_ic : List ℝ) (hne : x_ic ≠ []) (hlen : x_ic.length = u_ic.length) :
    loss_ic e x_ic u_ic =
      mean ((x_ic.zip u_ic).map (fun q => (evalE e q.1.1 q.1.2 - q.2) ^ 2)) ∧
    (loss_ic e x_ic u_ic = 0 ↔
      ∀ q ∈ x_ic.zip u_ic, evalE e q.1.1 q.1.2 = q.2) := by
  refine ⟨rfl, ?_⟩
  have hzlen : (x_ic.zip u_ic).length = x_ic.length := by
    rw [List.length_zip, hlen, min_self]
  have hpos : 0 < x_ic.length := List.length_pos.2 hne
  unfold loss_ic mean
  rw [div_eq_zero_iff]
  have hcast : ((((x_ic.zip u_ic).map
      (fun q => (evalE e q.1.1 q.1.2 - q.2) ^ 2)).length : ℝ)) ≠ 0 := by
    rw [List.length_map, hzlen]
    exact_mod_cast hpos.ne'
  have hmap : ((x_ic.zip u_ic).map (fun q => (evalE e q.1.1 q.1.2 - q.2) ^ 2)) =
      (((x_ic.zip u_ic).map (fun q => evalE e q.1.1 q.1.2 - q.2)).map
        (fun a => a ^ 2)) := by
    rw [List.map_map]
    rfl
  constructor
  · rintro (hs | habs)
    · rw [hmap] at hs
      have := (sum_sq_eq_zero_iff _).1 hs
      intro q hq
      have hq' := this _ (List.mem_map.2 ⟨q, hq, rfl⟩)
      linarith [hq']
    · exact absurd habs hcast
  · intro hall
    left
    rw [hmap]
    apply (sum_sq_eq_zero_iff _).2
    rintro a ha
    rcases List.mem_map.1 ha with ⟨q, hq, rfl⟩
    have := hall q hq
    linarith

/-- Witness for C6 at the zero network, a one-point IC batch and target
`0`: the batch is nonempty and the lengths agree. -/
theorem loss_ic_zero_iff_exact_witness :
    loss_ic (.konst 0) [((0 : ℝ), (0 : ℝ))] [(0 : ℝ)] =
      mean (([((0 : ℝ), (0 : ℝ))].zip [(0 : ℝ)]).map
        (fun q => (evalE (.konst 0) q.1.1 q.1.2 - q.2) ^ 2)) ∧
    (loss_ic (.konst 0) [((0 : ℝ), (0 : ℝ))] [(0 : ℝ)] = 0 ↔
      ∀ q ∈ ([((0 : ℝ), (0 : ℝ))].zip [(0 : ℝ)]),
        evalE (.konst 0) q.1.1 q.1.2 = q.2) :=
  loss_ic_zero_iff_exact _ _ _ (by simp) rfl

/-- Flattened `t_grid` reads the fast index: entry `k` is `t (k mod n_t)`. -/
theorem Tflat_getD {α : Type _} (t : List α) (d : α) :
    ∀ (x : List α) (k : ℕ), k < x.length * t.length →
      (Tflat t x).getD k d = t.getD (k % t.length) d := by
  intro x
  induction x with
  | nil => intro k hk; simp at hk
  | cons xi xs ih =>
    intro k hk
    have hstep : Tflat t (xi :: xs) = t ++ Tflat t xs := by
      simp [Tflat, meshgridT]
    rw [hstep]
    by_cases hkt : k < t.length
    · rw [List.getD_append _ _ d k hkt, Nat.mod_eq_of_lt hkt]
    · push_neg at hkt
      rw [List.getD_append_right _ _ d k hkt]
      obtain ⟨j, rfl⟩ : ∃ j, k = t.length + j := ⟨k - t.length, by omega⟩
      rw [List.length_cons, Nat.succ_mul] at hk
      have hj : j < xs.length * t.length := by omega
      rw [Nat.add_sub_cancel_left, ih j hj, Nat.add_mod_left]

/-- Flattened `x_grid` reads the slow index: entry `k` is `x (k div n_t)`. -/
theorem Xflat_getD {α : Type _} (t : List α) (d : α) :
    ∀ (x : List α) (k : ℕ), k < x.length * t.length →
      (Xflat t x).getD k d = x.getD (k / t.length) d := by
  intro x
  induction x with
  | nil => intro k hk; simp at hk
  | cons xi xs ih =>
    intro k hk
    have hstep : Xflat t (xi :: xs) = (t.map (fun _ => xi)) ++ Xflat t xs := by
      simp [Xflat, meshgridX]
    rw [hstep]
    by_cases hkt : k < t.length
    · rw [List.getD_append _ _ d k (by simpa using hkt)]
      rw [List.getD_eq_getElem _ _ (by simpa using hkt)]
      rw [Nat.div_eq_of_lt hkt]
      simp
    · push_neg at hkt
      rw [List.getD_append_right _ _ d k (by simpa using hkt)]
      obtain ⟨j, rfl⟩ : ∃ j, k = t.length + j := ⟨k - t.length, by omega⟩
      rw [List.length_cons, Nat.succ_mul] at hk
      have hj : j < xs.length * t.length := by omega
      have htl : 0 < t.length := by
        rcases Nat.eq_zero_or_pos t.length with h0 | h0
        · rw [h0, Nat.mul_zero] at hj
          exact absurd hj (Nat.not_lt_zero j)
        · exact h0
      have hlen : (t.map (fun _ => xi)).length = t.length := by simp
      rw [hlen, Nat.add_sub_cancel_left, ih j hj, Nat.add_div_left j htl,
        List.getD_cons_succ]

/-- Column `0` of `t_grid` is constantly the first time value. -/
theorem meshgridT_first_col {α : Type _} (t x : List α) (d : α) (i : ℕ)
    (hi : i < x.length) :
    ((meshgridT t x).getD i []).getD 0 d = t.getD 0 d := by
  rw [List.getD_eq_getElem (meshgridT t x) [] (by simpa [meshgridT] using hi)]
  simp [meshgridT]

/-- Column `0` of `x_grid` is the spatial axis itself. -/
theorem meshgridX_first_col {α : Type _} (t x : List α) (d : α) (i : ℕ)
    (hi : i < x.length) (ht : t ≠ []) :
    ((meshgridX t x).getD i []).getD 0 d = x.getD i d := by
  have hlen : i < (meshgridX t x).length := by simpa [meshgridX] using hi
  rw [List.getD_eq_getElem (meshgridX t x) [] hlen]
  have hrow : (meshgridX t x)[i] = t.map (fun _ => x[i]) := by
    simp [meshgridX]
  rw [hrow]
  have htl : 0 < t.length := List.length_pos.2 ht
  rw [List.getD_eq_getElem (t.map (fun _ => x[i])) d (by simpa using htl),
    List.getD_eq_getElem x d hi]
  simp

/-- C2: flattening `np.meshgrid(t, x)` is row-major with `x` as the slow
index and `t` as the fast index — the flattened pair at index `k` is
`(t (k mod n_t), x (k div n_t))` — so index-based subsampling preserves
point correspondence: every interior sample drawn through `id_f` pairs
the t-value and x-value of the same grid cell, and every IC sample drawn
through `id_ic` at index `i` yields the pair `(t 0, x i)` together with
the initial-condition value computed for that same `x i`. -/
theorem grid_flatten_correspondence (t x : List ℚ) (id_f id_ic : List ℕ)
    (hf : ∀ k ∈ id_f, k < x.length * t.length)
    (hic : ∀ i ∈ id_ic, i < x.length) (ht : t ≠ []) :
    (∀ k, k < x.length * t.length →
      (Tflat t x).getD k 0 = t.getD (k % t.length) 0 ∧
      (Xflat t x).getD k 0 = x.getD (k / t.length) 0) ∧
    x_int_train t x 0 id_f =
      id_f.map (fun k => (t.getD (k % t.length) 0, x.getD (k / t.length) 0)) ∧
    x_ic_train t x 0 id_ic =
      id_ic.map (fun i => (t.getD 0 0, x.getD i 0)) ∧
    u_ic_train t x id_ic = id_ic.map (fun i => icFun (x.getD i 0)) := by
  refine ⟨?_, ?_, ?_, ?_⟩
  · intro k hk
    exact ⟨Tflat_getD t 0 x k hk, Xflat_getD t 0 x k hk⟩
  · unfold x_int_train
    apply List.map_congr_left
    intro k hk
    rw [Tflat_getD t 0 x k (hf k hk), Xflat_getD t 0 x k (hf k hk)]
  · unfold x_ic_train
    apply List.map_congr_left
    intro i hi
    rw [meshgridT_first_col t x 0 i (hic i hi),
      meshgridX_first_col t x 0 i (hic i hi) ht]
  · unfold u_ic_train IC
    rw [List.map_map]
    apply List.map_congr_left
    intro i hi
    simp only [Function.comp]
    rw [meshgridX_first_col t x 0 i (hic i hi) ht]

/-- Witness for C2 on the concrete axes `t = [0, 1]`, `x = [10, 20]` with
interior draw `id_f = [3]` and IC draw `id_ic = [1]`. -/
theorem grid_flatten_correspondence_witness :
    (∀ k, k < ([(10 : ℚ), 20]).length * ([(0 : ℚ), 1]).length →
      (Tflat [(0 : ℚ), 1] [(10 : ℚ), 20]).getD k 0 =
        ([(0 : ℚ), 1]).getD (k % ([(0 : ℚ), 1]).length) 0 ∧
      (Xflat [(0 : ℚ), 1] [(10 : ℚ), 20]).getD k 0 =
        ([(10 : ℚ), 20]).getD (k / ([(0 : ℚ), 1]).length) 0) ∧
    x_int_train [(0 : ℚ), 1] [(10 : ℚ), 20] 0 [3] =
      ([3] : List ℕ).map (fun k =>
        (([(0 : ℚ), 1]).getD (k % ([(0 : ℚ), 1]).length) 0,
          ([(10 : ℚ), 20]).getD (k / ([(0 : ℚ), 1]).length) 0)) ∧
    x_ic_train [(0 : ℚ), 1] [(10 : ℚ), 20] 0 [1] =
      ([1] : List ℕ).map (fun i =>
        (([(0 : ℚ), 1]).getD 0 0, ([(10 : ℚ), 20]).getD i 0)) ∧
    u_ic_train [(0 : ℚ), 1] [(10 : ℚ), 20] [1] =
      ([1] : List ℕ).map (fun i => icFun (([(10 : ℚ), 20]).getD i 0)) :=
  grid_flatten_correspondence [(0 : ℚ), 1] [(10 : ℚ), 20] [3] [1]
    (by intro k hk; simp at hk; subst hk; decide)
    (by intro i hi; simp at hi; subst hi; decide)
    (by simp)

/-- C3: the initial-condition function returns `1` exactly on
`-0.5 ≤ x ≤ 0` (both boundaries inclusive) and `0` otherwise; in
particular `x = -0.5` and `x = 0` yield `1` while `x = 0.0001` and
`x = -0.5001` yield `0`. -/
theorem IC_step_boundaries :
    (∀ v : ℚ, (icFun v = 1 ↔ -0.5 ≤ v ∧ v ≤ 0) ∧
      (icFun v = 0 ↔ ¬(-0.5 ≤ v ∧ v ≤ 0))) ∧
    (∀ x : List ℚ, IC x = x.map icFun) ∧
    IC [-0.5, 0, 0.0001, -0.5001] = [1, 1, 0, 0] := by
  refine ⟨?_, fun _ => rfl, by norm_num [IC, icFun]⟩
  intro v
  unfold icFun
  constructor
  · split_ifs with h <;> simp [h]
  · split_ifs with h <;> simp [h]

/-- C10: `to_numpy` is total on exactly the two accepted types — every
tensor maps to the (detached, CPU) numpy array of its data, every numpy
array is returned unchanged — raises `TypeError` on any other type, and
never succeeds with a value that is not a numpy array. -/
theorem to_numpy_characterization :
    (∀ (dev : String) (g : Bool) (d : List ℚ),
      to_numpy (.tensor dev g d) = .ok (.ndarray d)) ∧
    (∀ d : List ℚ, to_numpy (.ndarray d) = .ok (.ndarray d)) ∧
    (∀ ty : String, to_numpy (.other ty) =
      .error ("Unknown type of input, expected torch.Tensor or np.ndarray, but got "
        ++ ty)) ∧
    (∀ o : PyObj, (∃ d, to_numpy o = .ok (.ndarray d)) ∨
      (∃ m, to_numpy o = .error m)) := by
  refine ⟨fun _ _ _ => rfl, fun _ => rfl, fun _ => rfl, ?_⟩
  intro o
  cases o with
  | tensor dev g d => exact Or.inl ⟨d, rfl⟩
  | ndarray d => exact Or.inl ⟨d, rfl⟩
  | other ty => exact Or.inr ⟨_, rfl⟩

/-- Unfolding the loop over one more epoch appended at the end. -/
theorem trainLoop_succ {Θ : Type _} (netE : Θ → Expr)
    (optStep : Θ → ℝ → Θ) (n : ℕ) (s0 : TrainState Θ) :
    trainLoop netE optStep (n + 1) s0 =
      ((trainStep netE optStep (trainLoop netE optStep n s0).1).1,
        (trainLoop netE optStep n s0).2 ++
          [(trainStep netE optStep (trainLoop netE optStep n s0).1).2]) := by
  unfold trainLoop
  rw [List.range'_concat, List.foldl_append]
  rfl

/-- The loop reaches exactly the iterated one-epoch step and reports one
loss per epoch, the loss of the state entering that epoch. -/
theorem trainLoop_spec {Θ : Type _} (netE : Θ → Expr)
    (optStep : Θ → ℝ → Θ) (s0 : TrainState Θ) :
    ∀ epochs : ℕ,
      (trainLoop netE optStep epochs s0).1 = stateAt netE optStep s0 epochs ∧
      (trainLoop netE optStep epochs s0).2.length = epochs ∧
      ∀ e, e < epochs →
        (trainLoop netE optStep epochs s0).2.getD e 0 =
          closureLoss netE (stateAt netE optStep s0 e) := by
  intro epochs
  induction epochs with
  | zero =>
    refine ⟨rfl, rfl, ?_⟩
    intro e he
    exact absurd he (Nat.not_lt_zero e)
  | succ n ih =>
    obtain ⟨ih1, ih2, ih3⟩ := ih
    rw [trainLoop_succ]
    refine ⟨by rw [ih1]; rfl, by simpa using ih2, ?_⟩
    intro e he
    by_cases hen : e < n
    · rw [List.getD_append _ _ 0 e (by rw [ih2]; exact hen)]
      exact ih3 e hen
    · have hee : e = n := by omega
      subst hee
      rw [List.getD_append_right _ _ 0 e (by rw [ih2])]
      rw [ih2, Nat.sub_self, ih1]
      rfl

/-- Only the parameters move: every epoch leaves the sampled tensors of
the state untouched. -/
theorem stateAt_tensors_fixed {Θ : Type _} (netE : Θ → Expr)
    (optStep : Θ → ℝ → Θ) (s0 : TrainState Θ) (k : ℕ) :
    (stateAt netE optStep s0 k).x_int_train = s0.x_int_train ∧
    (stateAt netE optStep s0 k).x_ic_train = s0.x_ic_train ∧
    (stateAt netE optStep s0 k).u_ic_train = s0.u_ic_train ∧
    (stateAt netE optStep s0 k).x_test = s0.x_test := by
  induction k with
  | zero => exact ⟨rfl, rfl, rfl, rfl⟩
  | succ n ih => exact ih

/-- C4: in every training epoch the scalar that is back-propagated and
handed to the optimizer step is `0.1 * loss_pde + 10 * loss_ic`, with the
two weights the same at every epoch: the loss reported for epoch index
`e` (0-based) is that combination evaluated at the entering parameters,
and the next parameters are the optimizer step on exactly that scalar. -/
theorem epoch_loss_fixed_weights {Θ : Type _} (netE : Θ → Expr)
    (optStep : Θ → ℝ → Θ) (s0 : TrainState Θ) (epochs e : ℕ)
    (he : e < epochs) :
    (trainLoop netE optStep epochs s0).2.getD e 0 =
      0.1 * loss_pde (netE (stateAt netE optStep s0 e).params)
          (stateAt netE optStep s0 e).x_int_train
        + 10 * loss_ic (netE (stateAt netE optStep s0 e).params)
          (stateAt netE optStep s0 e).x_ic_train
          (stateAt netE optStep s0 e).u_ic_train ∧
    (stateAt netE optStep s0 (e + 1)).params =
      optStep (stateAt netE optStep s0 e).params
        ((trainLoop netE optStep epochs s0).2.getD e 0) := by
  have hl := (trainLoop_spec netE optStep s0 epochs).2.2 e he
  exact ⟨by rw [hl]; rfl, by rw [hl]; rfl⟩

/-- Witness for C4: a one-epoch run with trivial parameters and an
identity optimizer, instantiated at epoch index `0 < 1`. -/
theorem epoch_loss_fixed_weights_witness :
    (0 : ℕ) < 1 ∧
    ((trainLoop (fun _ : Unit => Expr.konst 0) (fun θ _ => θ) 1
        ⟨(), [], [], [], []⟩).2.getD 0 0 =
      0.1 * loss_pde ((fun _ : Unit => Expr.konst 0)
          (stateAt (fun _ : Unit => Expr.konst 0) (fun θ _ => θ)
            ⟨(), [], [], [], []⟩ 0).params)
          (stateAt (fun _ : Unit => Expr.konst 0) (fun θ _ => θ)
            ⟨(), [], [], [], []⟩ 0).x_int_train
        + 10 * loss_ic ((fun _ : Unit => Expr.konst 0)
          (stateAt (fun _ : Unit => Expr.konst 0) (fun θ _ => θ)
            ⟨(), [], [], [], []⟩ 0).params)
          (stateAt (fun _ : Unit => Expr.konst 0) (fun θ _ => θ)
            ⟨(), [], [], [], []⟩ 0).x_ic_train
          (stateAt (fun _ : Unit => Expr.konst 0) (fun θ _ => θ)
            ⟨(), [], [], [], []⟩ 0).u_ic_train ∧
    (stateAt (fun _ : Unit => Expr.konst 0) (fun θ _ => θ)
        ⟨(), [], [], [], []⟩ (0 + 1)).params =
      (fun θ _ => θ) (stateAt (fun _ : Unit => Expr.konst 0) (fun θ _ => θ)
          ⟨(), [], [], [], []⟩ 0).params
        ((trainLoop (fun _ : Unit => Expr.konst 0) (fun θ _ => θ) 1
          ⟨(), [], [], [], []⟩).2.getD 0 0)) :=
  ⟨Nat.one_pos,
    epoch_loss_fixed_weights (fun _ : Unit => Expr.konst 0) (fun θ _ => θ)
      ⟨(), [], [], [], []⟩ 1 0 Nat.one_pos⟩

/-- C8: training terminates solely by exhausting the fixed epoch budget
(49911 in the reference configuration): for an arbitrary optimizer and
network — in particular independently of any loss value, so there is no
early-stopping rule — the loop performs exactly `EPOCHS` optimizer
steps, one per epoch, while the epoch counter runs through the strictly
increasing sequence `1, …, EPOCHS`, terminal at `EPOCHS`. -/
theorem training_epoch_budget {Θ : Type _} (netE : Θ → Expr)
    (optStep : Θ → ℝ → Θ) (s0 : TrainState Θ) :
    EPOCHS = 49911 ∧
    (trainLoop netE optStep EPOCHS s0).2.length = EPOCHS ∧
    (trainLoop netE optStep EPOCHS s0).1 = stateAt netE optStep s0 EPOCHS ∧
    (List.range' 1 EPOCHS).length = EPOCHS ∧
    List.Pairwise (· < ·) (List.range' 1 EPOCHS) ∧
    (∀ e ∈ List.range' 1 EPOCHS, 1 ≤ e ∧ e ≤ EPOCHS) ∧
    (List.range' 1 EPOCHS).getD (EPOCHS - 1) 0 = EPOCHS := by
  refine ⟨rfl, (trainLoop_spec netE optStep s0 EPOCHS).2.1,
    (trainLoop_spec netE optStep s0 EPOCHS).1, by simp,
    List.pairwise_lt_range' 1 EPOCHS, ?_, ?_⟩
  · intro e hee
    rw [List.mem_range'_1] at hee
    omega
  · have hlt : EPOCHS - 1 < (List.range' 1 EPOCHS).length := by
      simp [EPOCHS]
    rw [List.getD_eq_getElem _ _ hlt, List.getElem_range']
    norm_num [EPOCHS]

/-- C9: the sampled batches and the dense evaluation grid are built once,
before training, and no epoch changes them — after any number of epochs
the state differs from the initial state only in the network parameters,
and every epoch's closure reads the same fixed tensors of the initial
state, mutating nothing else. -/
theorem sampling_once_tensors_immutable {Θ : Type _} (netE : Θ → Expr)
    (optStep : Θ → ℝ → Θ) (s0 : TrainState Θ) (k : ℕ) :
    stateAt netE optStep s0 k =
      { s0 with params := (stateAt netE optStep s0 k).params } ∧
    closureLoss netE (stateAt netE optStep s0 k) =
      0.1 * loss_pde (netE (stateAt netE optStep s0 k).params) s0.x_int_train
        + 10 * loss_ic (netE (stateAt netE optStep s0 k).params)
            s0.x_ic_train s0.u_ic_train := by
  obtain ⟨h1, h2, h3, h4⟩ := stateAt_tensors_fixed netE optStep s0 k
  constructor
  · conv_rhs => rw [← h1, ← h2, ← h3, ← h4]
  · unfold closureLoss
    rw [h1, h2, h3]

end BuckleyLeverett
